import Mathlib

/-!
Verification development for the context-aware rule engine of the
pcw-toolbelt repository (src/src/core/ContextManager.ts,
src/src/core/auditor.ts, src/src/core/types.ts).

The TypeScript code is embedded shallowly: pure functions become Lean
functions, the rules cache becomes explicit state passing, JavaScript
regular expressions are modelled by a small executable regex engine
covering the fragment of syntax the rule packs and signatures use, and
code that can throw returns Except.  File and network input is modelled
by environment records holding the data those reads would produce.
-/

namespace PCW

/-- FrameworkContext from types.ts: four known framework tags plus the
unknown sentinel. -/
inductive FrameworkContext where
  | elementor
  | wordpress
  | react
  | woocommerce
  | unknown
deriving DecidableEq, Repr

/-- String form of a context, as used in template strings of the code. -/
def contextName : FrameworkContext → String
  | .elementor => "elementor"
  | .wordpress => "wordpress"
  | .react => "react"
  | .woocommerce => "woocommerce"
  | .unknown => "unknown"

/-- JavaScript truthiness fallback s1 or-else s2 on strings: the empty
string is falsy. -/
def jsOrStr (s fallback : String) : String :=
  if s = "" then fallback else s

/-- JavaScript truthiness fallback on an optional string (undefined and
the empty string both fall through to the fallback). -/
def jsOrOpt (o : Option String) (fallback : String) : String :=
  match o with
  | none => fallback
  | some s => jsOrStr s fallback

/-- RuleFix.replace from types.ts. -/
structure RuleFixReplace where
  pattern : String
  replacement : String
  flags : Option String
deriving DecidableEq, Repr

/-- RuleFix from types.ts. -/
structure RuleFix where
  description : String
  replace : Option RuleFixReplace
deriving DecidableEq, Repr

/-- Rule from types.ts.  Severity is kept as a raw string because rule
data arrives from JSON, where the TypeScript union type is not
enforced; the code itself validates override values against the three
allowed strings. -/
structure Rule where
  id : Option String
  pattern : String
  message : String
  severity : String
  category : Option String
  mustExist : Bool
  suggestion : Option String
  fix : Option RuleFix
deriving DecidableEq, Repr

/-- RuleSet from types.ts. -/
structure RuleSet where
  context : FrameworkContext
  description : String
  rules : List Rule
  source : Option String
deriving DecidableEq, Repr

/-- Rule identity used for merging and overrides: rule.id or
rule.pattern with JavaScript truthiness (ContextManager.ts lines 301
and 322). -/
def ruleKey (r : Rule) : String :=
  jsOrOpt r.id r.pattern

/-- Entry update for a JavaScript Map: set replaces the value in place
when the key is present (keeping its insertion position) and appends
otherwise. -/
def mapSet (m : List (String × Rule)) (k : String) (r : Rule) :
    List (String × Rule) :=
  match m with
  | [] => [(k, r)]
  | (k0, r0) :: rest =>
    if k0 = k then (k0, r) :: rest else (k0, r0) :: mapSet rest k r

/-- mergeRuleSets from ContextManager.ts lines 296 to 307: insert every
rule of every set, in order, into a Map keyed by rule identity, then
return the values in insertion order. -/
def mergeRuleSets (ruleSets : List RuleSet) : List Rule :=
  (ruleSets.foldl
    (fun m set => set.rules.foldl (fun m r => mapSet m (ruleKey r) r) m)
    []).map (·.2)

/-- WorkspaceConfig shape parsed from .pcw-rules/config.json.  Severity
override values are raw strings, as JSON imposes no union type. -/
structure WorkspaceConfig where
  severityOverrides :
    Option (List (FrameworkContext × List (String × String)))
  repositories : Option (List String)

/-- First-match association lookup, modelling JavaScript object
indexing. -/
def alistFind {α β : Type} [DecidableEq α] (l : List (α × β)) (k : α) :
    Option β :=
  match l with
  | [] => none
  | (k0, v) :: rest => if k0 = k then some v else alistFind rest k

/-- applySeverityOverrides from ContextManager.ts lines 309 to 334. -/
def applySeverityOverrides (rules : List Rule) (context : FrameworkContext)
    (config : Option WorkspaceConfig) : List Rule :=
  match config with
  | none => rules
  | some cfg =>
    match cfg.severityOverrides with
    | none => rules
    | some so =>
      match alistFind so context with
      | none => rules
      | some overrides =>
        rules.map fun rule =>
          match alistFind overrides (ruleKey rule) with
          | none => rule
          | some override =>
            if override = "" then rule
            else if override = "error" ∨ override = "warning" ∨
                override = "info" then
              { rule with severity := override }
            else rule

/-- Remote rule-set JSON as parsed: the context field may be absent
(undefined), which the code tests with JavaScript falsiness. -/
structure RemoteRuleSet where
  context : Option FrameworkContext
  description : String
  rules : List Rule
  source : Option String
deriving DecidableEq, Repr

/-- Outcome of one https.get request: a network error, or a response
with a status code and a body whose JSON parse either succeeds with a
rule set or fails (none).  The network stack and JSON.parse are
platform builtins, so only their observable outcome is modelled. -/
inductive FetchResponse where
  | netError
  | response (status : Nat) (parsed : Option RemoteRuleSet)
deriving DecidableEq, Repr

/-- fetchRemoteRuleSet from ContextManager.ts lines 336 to 360: resolve
null on network error, on any status of 400 or more, and on a JSON
parse failure; otherwise resolve the parsed rule set. -/
def fetchRemoteRuleSet (resp : FetchResponse) : Option RemoteRuleSet :=
  match resp with
  | .netError => none
  | .response status parsed =>
    if 400 ≤ status then none else parsed

/-- Body of the per-URL loop of loadRemoteRuleSets (ContextManager.ts
lines 280 to 291): keep a fetched set only when its declared context
equals the requested one or is absent, then coerce its context and tag
its source with the URL. -/
def remoteLoopStep (context : FrameworkContext)
    (fetch : String → FetchResponse) (acc : List RuleSet) (url : String) :
    List RuleSet :=
  match fetchRemoteRuleSet (fetch url) with
  | none => acc
  | some ruleSet =>
    if ruleSet.context = some context ∨ ruleSet.context = none then
      acc ++ [{ context := context
                description := ruleSet.description
                rules := ruleSet.rules
                source := some url }]
    else acc

/-- loadRemoteRuleSets from ContextManager.ts lines 271 to 294. -/
def loadRemoteRuleSets (context : FrameworkContext)
    (repositories : Option (List String))
    (fetch : String → FetchResponse) : List RuleSet :=
  match repositories with
  | none => []
  | some urls =>
    if urls.length = 0 then []
    else urls.foldl (remoteLoopStep context fetch) []

/-- Environment for loadRules: the observable results of the file and
network reads it performs.  base models loadBaseRuleSet (which can
throw when the extension path is missing), workspaceSets models
loadWorkspaceRuleSets, config models loadWorkspaceConfig, and fetch
models the https layer behind fetchRemoteRuleSet. -/
structure RulesEnv where
  workspaceRoot : Option String
  base : FrameworkContext → Except Unit (Option RuleSet)
  workspaceSets : FrameworkContext → List RuleSet
  config : Option WorkspaceConfig
  fetch : String → FetchResponse

/-- getCacheKey from ContextManager.ts lines 68 to 71. -/
def getCacheKey (workspaceRoot : Option String)
    (context : FrameworkContext) : String :=
  (workspaceRoot.getD "global") ++ "::" ++ contextName context

/-- The rules cache, modelled as an insertion-ordered association
list. -/
def RulesCache := List (String × RuleSet)

/-- Map.get on the cache. -/
def cacheGet (cache : RulesCache) (k : String) : Option RuleSet :=
  alistFind cache k

/-- Map.set on the cache. -/
def cacheSet (cache : RulesCache) (k : String) (v : RuleSet) :
    RulesCache :=
  match cache with
  | [] => [(k, v)]
  | (k0, v0) :: rest =>
    if k0 = k then (k0, v) :: rest else (k0, v0) :: cacheSet rest k v

/-- The try block of loadRules (ContextManager.ts lines 147 to 176):
load the four sources, merge, apply severity overrides, and assemble
the merged RuleSet. -/
def buildMergedRuleSet (env : RulesEnv) (context : FrameworkContext) :
    Except Unit RuleSet :=
  match env.base context with
  | .error e => .error e
  | .ok baseRuleSet =>
    let workspaceRuleSets := env.workspaceSets context
    let config := env.config
    let remoteRuleSets :=
      loadRemoteRuleSets context (config.bind (·.repositories)) env.fetch
    let mergedRules := mergeRuleSets
      ((match baseRuleSet with | some b => [b] | none => []) ++
        workspaceRuleSets ++ remoteRuleSets)
    let rulesWithOverrides := applySeverityOverrides mergedRules context config
    .ok { context := context
          description := jsOrOpt (baseRuleSet.map (·.description))
            (contextName context ++
              " rules (including workspace and community overlays)")
          rules := rulesWithOverrides
          source := some ((baseRuleSet.bind (·.source)).getD "merged") }

/-- loadRules from ContextManager.ts lines 135 to 186, with the cache
passed explicitly: return null for the unknown context, serve a cache
hit without touching the sources, otherwise build, store and return the
merged set; a thrown error is caught and surfaced as null with the
cache unchanged. -/
def loadRules (env : RulesEnv) (context : FrameworkContext)
    (cache : RulesCache) : Option RuleSet × RulesCache :=
  if context = .unknown then (none, cache)
  else
    match cacheGet cache (getCacheKey env.workspaceRoot context) with
    | some cached => (some cached, cache)
    | none =>
      match buildMergedRuleSet env context with
      | .ok mergedRuleSet =>
        (some mergedRuleSet,
          cacheSet cache (getCacheKey env.workspaceRoot context) mergedRuleSet)
      | .error _ => (none, cache)

/-- clearCache from ContextManager.ts lines 461 to 463. -/
def clearCache (_cache : RulesCache) : RulesCache := []

/-!
A small executable model of JavaScript regular expressions, covering
the fragment of syntax used by the detection signatures and the rule
packs: literal characters, escapes, the classes backslash-s, -d and -w
and their negations, bracket character classes with ranges, groups,
alternation, the dot, and the quantifiers star, plus and question mark.
Constructs outside the fragment are rejected by the pattern compiler,
as are the strings that new RegExp itself rejects (dangling backslash,
unmatched parentheses, unterminated classes, quantifiers with nothing
to repeat, unknown flags).
-/

/-- Regular expression flags: global, ignore case, multiline,
dot-matches-newline. -/
structure RegFlags where
  g : Bool
  i : Bool
  m : Bool
  s : Bool
deriving DecidableEq, Repr

/-- One item of a bracket character class. -/
inductive ClsItem where
  | single (c : Char)
  | range (lo hi : Char)
deriving DecidableEq, Repr

/-- Abstract syntax of the supported regular expression fragment. -/
inductive Reg where
  | fail
  | eps
  | char (c : Char)
  | any
  | cls (neg : Bool) (items : List ClsItem)
  | space (neg : Bool)
  | digit (neg : Bool)
  | word (neg : Bool)
  | seq (a b : Reg)
  | alt (a b : Reg)
  | star (a : Reg)
deriving DecidableEq, Repr

/-- JavaScript whitespace class membership (the common members). -/
def jsSpaceChar (c : Char) : Bool :=
  c == ' ' || c == '\t' || c == '\n' || c == '\r' ||
    c == '\x0b' || c == '\x0c' || c == '\xa0'

/-- JavaScript digit class membership. -/
def jsDigitChar (c : Char) : Bool :=
  decide ('0' ≤ c) && decide (c ≤ '9')

/-- JavaScript word class membership. -/
def jsWordChar (c : Char) : Bool :=
  c.isAlpha || jsDigitChar c || c == '_'

/-- Single character comparison, folding case under the i flag. -/
def charMatches (fl : RegFlags) (b c : Char) : Bool :=
  if fl.i then b.toLower == c.toLower else b == c

/-- Character class item membership, folding case under the i flag. -/
def clsItemMatches (fl : RegFlags) (item : ClsItem) (c : Char) : Bool :=
  match item with
  | .single b => charMatches fl b c
  | .range lo hi =>
    (decide (lo ≤ c) && decide (c ≤ hi)) ||
      (fl.i && ((decide (lo ≤ c.toLower) && decide (c.toLower ≤ hi)) ||
        (decide (lo ≤ c.toUpper) && decide (c.toUpper ≤ hi))))

/-- Whether a regular expression accepts the empty string. -/
def nullable : Reg → Bool
  | .fail => false
  | .eps => true
  | .char _ => false
  | .any => false
  | .cls _ _ => false
  | .space _ => false
  | .digit _ => false
  | .word _ => false
  | .seq a b => nullable a && nullable b
  | .alt a b => nullable a || nullable b
  | .star _ => true

/-- Brzozowski derivative of a regular expression by one character. -/
def deriv (fl : RegFlags) : Reg → Char → Reg
  | .fail, _ => .fail
  | .eps, _ => .fail
  | .char b, c => if charMatches fl b c then .eps else .fail
  | .any, c =>
    if !fl.s && (c == '\n' || c == '\r' || c == '\u2028' || c == '\u2029')
    then .fail else .eps
  | .cls neg items, c =>
    if (items.any (clsItemMatches fl · c)) != neg then .eps else .fail
  | .space neg, c => if jsSpaceChar c != neg then .eps else .fail
  | .digit neg, c => if jsDigitChar c != neg then .eps else .fail
  | .word neg, c => if jsWordChar c != neg then .eps else .fail
  | .seq a b, c =>
    if nullable a then .alt (.seq (deriv fl a c) b) (deriv fl b c)
    else .seq (deriv fl a c) b
  | .alt a b, c => .alt (deriv fl a c) (deriv fl b c)
  | .star a, c => .seq (deriv fl a c) (.star a)

/-- Length of the longest leading segment of the character list
accepted by the regular expression, or none when no leading segment
(not even the empty one) is accepted.  Models the greedy match length
of the backtracking engine. -/
def longestFrom (fl : RegFlags) : Reg → List Char → Option Nat
  | r, [] => if nullable r then some 0 else none
  | r, c :: cs =>
    match longestFrom fl (deriv fl r c) cs with
    | some n => some (n + 1)
    | none => if nullable r then some 0 else none

/-- Unanchored search: does the regular expression match starting at
some position of the character list?  Models RegExp.prototype.test. -/
def searchIn (fl : RegFlags) (r : Reg) : List Char → Bool
  | [] => (longestFrom fl r []).isSome
  | c :: cs => (longestFrom fl r (c :: cs)).isSome || searchIn fl r cs

/-- First match at or after the running position: position index plus
greedy match length.  Models one step of RegExp.prototype.exec. -/
def findFrom (fl : RegFlags) (r : Reg) : List Char → Nat → Option (Nat × Nat)
  | [], i =>
    match longestFrom fl r [] with
    | some n => some (i, n)
    | none => none
  | c :: cs, i =>
    match longestFrom fl r (c :: cs) with
    | some n => some (i, n)
    | none => findFrom fl r cs (i + 1)

/-- exec from a given lastIndex: no match when lastIndex exceeds the
content length, otherwise the leftmost match at or after it. -/
def regexFindAt (fl : RegFlags) (r : Reg) (cs : List Char) (start : Nat) :
    Option (Nat × Nat) :=
  if cs.length < start then none
  else findFrom fl r (cs.drop start) start

/-- The global exec loop: repeatedly take the next match, advancing
past it, with the one-character advance guard for zero-length matches
(auditFile lines 413 to 429).  The fuel bounds the iteration count;
every step strictly increases the position, so content length plus two
steps always suffice. -/
def execAllAux (fl : RegFlags) (r : Reg) (cs : List Char) :
    Nat → Nat → List (Nat × Nat)
  | 0, _ => []
  | fuel + 1, lastIndex =>
    match regexFindAt fl r cs lastIndex with
    | none => []
    | some (i, n) =>
      (i, n) :: execAllAux fl r cs fuel (if n = 0 then i + 1 else i + n)

/-- All successive global matches of a regular expression over the
content, as position and length pairs. -/
def execAll (fl : RegFlags) (r : Reg) (cs : List Char) : List (Nat × Nat) :=
  execAllAux fl r cs (cs.length + 2) 0

mutual

/-- Parse an alternation, stopping at an unconsumed closing parenthesis
or the end of input. -/
def parseAlt : Nat → List Char → Option (Reg × List Char)
  | 0, _ => none
  | fuel + 1, cs =>
    match parseSeq fuel cs with
    | none => none
    | some (a, rest) =>
      match rest with
      | '|' :: rest2 =>
        match parseAlt fuel rest2 with
        | none => none
        | some (b, rest3) => some (.alt a b, rest3)
      | _ => some (a, rest)

/-- Parse a concatenation of factors. -/
def parseSeq : Nat → List Char → Option (Reg × List Char)
  | 0, _ => none
  | fuel + 1, cs =>
    match cs with
    | [] => some (.eps, [])
    | '|' :: _ => some (.eps, cs)
    | ')' :: _ => some (.eps, cs)
    | _ =>
      match parseFactor fuel cs with
      | none => none
      | some (f, rest) =>
        match parseSeq fuel rest with
        | none => none
        | some (s, rest2) => some (.seq f s, rest2)

/-- Parse one atom with an optional quantifier. -/
def parseFactor : Nat → List Char → Option (Reg × List Char)
  | 0, _ => none
  | fuel + 1, cs =>
    match parseAtom fuel cs with
    | none => none
    | some (a, rest) =>
      match rest with
      | '*' :: r => some (.star a, r)
      | '+' :: r => some (.seq a (.star a), r)
      | '?' :: r => some (.alt a .eps, r)
      | _ => some (a, rest)

/-- Parse one atom: escape, group, character class, dot or literal.
Stray closing parentheses and quantifiers with nothing to repeat fail,
as they do in new RegExp. -/
def parseAtom : Nat → List Char → Option (Reg × List Char)
  | 0, _ => none
  | fuel + 1, cs =>
    match cs with
    | [] => none
    | '\\' :: rest =>
      match rest with
      | [] => none
      | c :: rest2 =>
        if c = 's' then some (.space false, rest2)
        else if c = 'S' then some (.space true, rest2)
        else if c = 'd' then some (.digit false, rest2)
        else if c = 'D' then some (.digit true, rest2)
        else if c = 'w' then some (.word false, rest2)
        else if c = 'W' then some (.word true, rest2)
        else if c = 'n' then some (.char '\n', rest2)
        else if c = 't' then some (.char '\t', rest2)
        else if c = 'r' then some (.char '\r', rest2)
        else if c.isAlpha || c.isDigit then none
        else some (.char c, rest2)
    | '(' :: rest =>
      match rest with
      | '?' :: ':' :: rest2 =>
        match parseAlt fuel rest2 with
        | none => none
        | some (a, rest3) =>
          match rest3 with
          | ')' :: rest4 => some (a, rest4)
          | _ => none
      | '?' :: _ => none
      | _ =>
        match parseAlt fuel rest with
        | none => none
        | some (a, rest3) =>
          match rest3 with
          | ')' :: rest4 => some (a, rest4)
          | _ => none
    | '[' :: '^' :: rest =>
      match parseClsItems fuel rest with
      | none => none
      | some (items, rest2) => some (.cls true items, rest2)
    | '[' :: rest =>
      match parseClsItems fuel rest with
      | none => none
      | some (items, rest2) => some (.cls false items, rest2)
    | '.' :: rest => some (.any, rest)
    | ')' :: _ => none
    | '*' :: _ => none
    | '+' :: _ => none
    | '?' :: _ => none
    | '|' :: _ => none
    | '^' :: _ => none
    | '$' :: _ => none
    | c :: rest => some (.char c, rest)

/-- Parse the items of a bracket character class up to the closing
bracket. -/
def parseClsItems : Nat → List Char → Option (List ClsItem × List Char)
  | 0, _ => none
  | fuel + 1, cs =>
    match cs with
    | [] => none
    | ']' :: rest => some ([], rest)
    | '\\' :: [] => none
    | '\\' :: c :: rest =>
      if c.isAlpha || c.isDigit then none
      else
        match parseClsItems fuel rest with
        | none => none
        | some (items, rest2) => some (.single c :: items, rest2)
    | c :: '-' :: d :: rest =>
      if d = ']' then
        match parseClsItems fuel (d :: rest) with
        | none => none
        | some (items, rest2) =>
          some (.single c :: .single '-' :: items, rest2)
      else if c ≤ d then
        match parseClsItems fuel rest with
        | none => none
        | some (items, rest2) => some (.range c d :: items, rest2)
      else none
    | c :: rest =>
      match parseClsItems fuel rest with
      | none => none
      | some (items, rest2) => some (.single c :: items, rest2)

end

/-- Parse a flags string; any character that is not a known flag is a
syntax error, as in new RegExp. -/
def parseFlagsAux : List Char → RegFlags → Option RegFlags
  | [], f => some f
  | c :: rest, f =>
    if c = 'g' then parseFlagsAux rest { f with g := true }
    else if c = 'i' then parseFlagsAux rest { f with i := true }
    else if c = 'm' then parseFlagsAux rest { f with m := true }
    else if c = 's' then parseFlagsAux rest { f with s := true }
    else if c = 'u' || c = 'y' || c = 'd' || c = 'v' then
      parseFlagsAux rest f
    else none

/-- Parse a flags string starting from all flags clear. -/
def parseFlags (s : String) : Option RegFlags :=
  parseFlagsAux s.toList ⟨false, false, false, false⟩

/-- A compiled regular expression: syntax tree plus flags. -/
structure CompiledRegex where
  reg : Reg
  flags : RegFlags
deriving DecidableEq, Repr

/-- Model of new RegExp(pattern, flags): none exactly when the
constructor would throw a SyntaxError. -/
def compileRegex (pattern flags : String) : Option CompiledRegex :=
  match parseFlags flags with
  | none => none
  | some fl =>
    match parseAlt (4 * pattern.length + 8) pattern.toList with
    | some (r, []) => some { reg := r, flags := fl }
    | _ => none

/-- Model of RegExp.prototype.test on a fresh regex: unanchored
search. -/
def regexTest (cr : CompiledRegex) (s : String) : Bool :=
  searchIn cr.flags cr.reg s.toList

/-- AuditIssue from types.ts. -/
structure AuditIssue where
  line : Nat
  column : Nat
  rule : Rule
  matched : String
  suggestion : Option String
  fix : Option RuleFix
deriving DecidableEq, Repr

/-- Split a character list at newline characters, mirroring
String.prototype.split with separator newline (the split of the empty
string is one empty piece). -/
def splitNl : List Char → List (List Char)
  | [] => [[]]
  | c :: cs =>
    match splitNl cs with
    | [] => if c = '\n' then [[], []] else [[c]]
    | h :: t => if c = '\n' then [] :: h :: t else (c :: h) :: t

/-- getPositionFromIndex from ContextManager.ts lines 465 to 477: line
is the number of newline-separated pieces of the text preceding the
index, column is the length of the last piece plus one. -/
def getPositionFromIndex (cs : List Char) (index : Nat) : Nat × Nat :=
  let preceding := cs.take index
  let lines := splitNl preceding
  (lines.length, (lines.getLastD []).length + 1)

/-- One iteration of the rule loop of auditFile (ContextManager.ts
lines 394 to 430): the issues that one rule contributes, or an error
when new RegExp throws on the pattern of the rule (there is no catch in
the loop). -/
def auditRule (content : String) (rule : Rule) :
    Except Unit (List AuditIssue) :=
  match compileRegex rule.pattern "gm" with
  | none => .error ()
  | some regex =>
    if rule.mustExist then
      if regexTest regex content then .ok []
      else
        .ok [{ line := 1
               column := 1
               rule := rule
               matched := "(missing)"
               suggestion := rule.suggestion
               fix := rule.fix }]
    else
      let cs := content.toList
      .ok ((execAll regex.flags regex.reg cs).map fun m =>
        let position := getPositionFromIndex cs m.1
        { line := position.1
          column := position.2
          rule := rule
          matched := String.mk ((cs.drop m.1).take m.2)
          suggestion := rule.suggestion
          fix := rule.fix })

/-- The whole rule loop of auditFile: issues of all rules concatenated
in rule order; the first rule whose pattern fails to compile throws out
of the loop and aborts the audit. -/
def auditContent (content : String) : List Rule → Except Unit (List AuditIssue)
  | [] => .ok []
  | rule :: rest =>
    match auditRule content rule with
    | .error e => .error e
    | .ok issues =>
      match auditContent content rest with
      | .error e => .error e
      | .ok more => .ok (issues ++ more)

/-- Replace every match in the list by the replacement characters,
keeping the text between matches; a zero-length match inserts the
replacement and keeps the character at the match position. -/
def spliceAll (cs : List Char) (rep : List Char) :
    Nat → List (Nat × Nat) → List Char
  | pos, [] => cs.drop pos
  | pos, (i, n) :: ms =>
    ((cs.drop pos).take (i - pos)) ++ rep ++ spliceAll cs rep (i + n) ms

/-- Model of String.prototype.replace with a regex: all matches when
the global flag is set, only the first otherwise.  Replacement strings
are taken literally (the rule packs use no dollar references). -/
def jsReplace (cr : CompiledRegex) (replacement : String) (s : String) :
    String :=
  let cs := s.toList
  let ms :=
    if cr.flags.g then execAll cr.flags cr.reg cs
    else
      match regexFindAt cr.flags cr.reg cs 0 with
      | none => []
      | some m => [m]
  String.mk (spliceAll cs replacement.toList 0 ms)

/-- The per-rule loop body of applyAutoFixes (auditor.ts lines 183 to
194), folded over the already filtered fixable rules: skip a rule with
no replacement descriptor, throw when new RegExp rejects the fix
pattern or flags, skip when the fix regex does not match the current
content, and otherwise replace globally and record the rule id or
message. -/
def applyFixesLoop (rules : List Rule) (updatedContent : String)
    (applied : List String) : Except Unit (String × List String) :=
  match rules with
  | [] => .ok (updatedContent, applied)
  | rule :: rest =>
    match rule.fix.bind (·.replace) with
    | none => applyFixesLoop rest updatedContent applied
    | some replacement =>
      match compileRegex replacement.pattern
          (jsOrOpt replacement.flags "gm") with
      | none => .error ()
      | some regex =>
        if regexTest regex updatedContent then
          applyFixesLoop rest
            (jsReplace regex replacement.replacement updatedContent)
            (applied ++ [jsOrOpt rule.id rule.message])
        else applyFixesLoop rest updatedContent applied

/-- applyAutoFixes from auditor.ts lines 172 to 199, restricted to its
content transformation: filter the rules to those carrying a
fix.replace descriptor, then apply each matching fix sequentially to
the progressively updated content, recording applied rule identities
in order. -/
def applyAutoFixes (content : String) (rules : List Rule) :
    Except Unit (String × List String) :=
  let fixableRules := rules.filter fun r => (r.fix.bind (·.replace)).isSome
  applyFixesLoop fixableRules content []

/-- ContextSignature from types.ts. -/
structure ContextSignature where
  context : FrameworkContext
  patterns : List String
deriving DecidableEq, Repr

/-- The signature table of ContextManager.ts lines 26 to 66. -/
def signatures : List ContextSignature :=
  [ { context := .elementor
      patterns :=
        [ "\\\\Elementor\\\\Widget_Base"
        , "extends\\s+Widget_Base"
        , "namespace\\s+Elementor"
        , "use\\s+Elementor\\\\Widget_Base" ] }
  , { context := .wordpress
      patterns :=
        [ "add_action\\s*\\("
        , "add_filter\\s*\\("
        , "wp_enqueue_"
        , "register_post_type\\s*\\("
        , "get_template_part\\s*\\(" ] }
  , { context := .react
      patterns :=
        [ "useEffect\\s*\\("
        , "useState\\s*\\("
        , "className\\s*="
        , "import\\s+React"
        , "from\\s+[\x27\"]react[\x27\"]" ] }
  , { context := .woocommerce
      patterns :=
        [ "WC_Order"
        , "WC_Product"
        , "woocommerce_"
        , "WC\\(\\)"
        , "class\\s+WC_" ] } ]

/-- Case-insensitive test of one signature pattern against the content,
as in new RegExp(pattern, i-flag).test(content).  All patterns in the
signature table are valid, so the throwing branch of new RegExp is
unreachable on the actual data and a failed compile simply reports no
match. -/
def testSignaturePattern (pattern : String) (content : String) : Bool :=
  match compileRegex pattern "i" with
  | none => false
  | some regex => regexTest regex content

/-- Whether some pattern of the signature matches the content. -/
def signatureMatches (sig : ContextSignature) (content : String) : Bool :=
  sig.patterns.any (testSignaturePattern · content)

/-- The signature loop of detectContext, over an explicit signature
list. -/
def detectLoop (content : String) : List ContextSignature → FrameworkContext
  | [] => .unknown
  | sig :: rest =>
    if signatureMatches sig content then sig.context
    else detectLoop content rest

/-- detectContext from ContextManager.ts lines 97 to 107. -/
def detectContext (content : String) : FrameworkContext :=
  detectLoop content signatures

/-- Set.add on the insertion-ordered list of detected contexts: append
only when absent. -/
def setAdd (l : List FrameworkContext) (c : FrameworkContext) :
    List FrameworkContext :=
  if c ∈ l then l else l ++ [c]

/-- The signature loop of detectAllContexts: within one signature the
inner loop breaks at the first matching pattern, so each signature adds
its context at most once. -/
def detectAllLoop (content : String) (acc : List FrameworkContext) :
    List ContextSignature → List FrameworkContext
  | [] => acc
  | sig :: rest =>
    detectAllLoop content
      (if signatureMatches sig content then setAdd acc sig.context else acc)
      rest

/-- detectAllContexts from ContextManager.ts lines 114 to 128. -/
def detectAllContexts (content : String) : List FrameworkContext :=
  detectAllLoop content [] signatures

/-- Modelled from the spec: the signature detector contract of section
4.1, written from its words — return the Category of the first
signature, in declaration order, one of whose patterns matches anywhere
in the content, and the unknown sentinel when no signature matches. -/
def detectContextSpec (content : String) : FrameworkContext :=
  match signatures.find? (fun sig => signatureMatches sig content) with
  | some sig => sig.context
  | none => .unknown

/-- The last rule of the list whose identity is the given key: the rule
that survives merging under last-wins semantics. -/
def lastRuleWith (l : List Rule) (k : String) : Option Rule :=
  l.reverse.find? (fun r => decide (ruleKey r = k))

/-!  Concrete data used by the closed witness instances below. -/

/-- A bundled rule used in witness instances. -/
def wBundledRule : Rule :=
  { id := some "no-eval"
    pattern := "eval\\("
    message := "no eval"
    severity := "error"
    category := none
    mustExist := false
    suggestion := none
    fix := none }

/-- The workspace override of the same identity with different
fields. -/
def wOverrideRule : Rule :=
  { id := some "no-eval"
    pattern := "eval\\s*\\("
    message := "avoid eval"
    severity := "warning"
    category := some "security"
    mustExist := false
    suggestion := some "use a safer construct"
    fix := none }

/-- A remote rule under a distinct identity. -/
def wRemoteRule : Rule :=
  { id := some "wc-order"
    pattern := "WC_Order"
    message := "order usage"
    severity := "info"
    category := none
    mustExist := false
    suggestion := none
    fix := none }

/-- Bundled witness set. -/
def wBundled : RuleSet :=
  { context := .wordpress
    description := "bundled"
    rules := [wBundledRule]
    source := some "extension" }

/-- Workspace override witness set. -/
def wOverride : RuleSet :=
  { context := .wordpress
    description := "override"
    rules := [wOverrideRule]
    source := some "/ws/.pcw-rules/wordpress-rules.json" }

/-- Remote witness set with no colliding identity. -/
def wRemote : RuleSet :=
  { context := .wordpress
    description := "remote"
    rules := [wRemoteRule]
    source := some "https://feed.example/rules.json" }

/-- Workspace configuration with one valid and one invalid severity
override. -/
def sevCfg : WorkspaceConfig :=
  { severityOverrides :=
      some [(.wordpress, [("no-eval", "warning"), ("wc-order", "fatal")])]
    repositories := none }

/-- A fetched remote rule set that declares a different category than
the one requested. -/
def c4Remote : RemoteRuleSet :=
  { context := some .react
    description := "community"
    rules := [wRemoteRule]
    source := none }

/-- A fetch layer that always answers 200 with the mis-declared set. -/
def c4Fetch : String → FetchResponse :=
  fun _ => .response 200 (some c4Remote)

/-- A fetched remote rule set that omits its category. -/
def c4OkRemote : RemoteRuleSet :=
  { context := none
    description := "community"
    rules := [wRemoteRule]
    source := none }

/-- A fetch layer that always answers 200 with the category-less
set. -/
def c4FetchOk : String → FetchResponse :=
  fun _ => .response 200 (some c4OkRemote)

/-- A fetch layer where one URL yields HTTP 500 and every other URL a
successful category-less body. -/
def c9Fetch : String → FetchResponse :=
  fun url =>
    if url = "https://bad" then .response 500 none
    else .response 200 (some c4OkRemote)

/-- A rule whose pattern is not a valid regular expression. -/
def badRule : Rule :=
  { id := some "broken"
    pattern := "("
    message := "broken rule"
    severity := "error"
    category := none
    mustExist := false
    suggestion := none
    fix := none }

/-- A mustExist rule requiring the literal foo. -/
def mustRule : Rule :=
  { id := none
    pattern := "foo"
    message := "required foo"
    severity := "warning"
    category := none
    mustExist := true
    suggestion := none
    fix := none }

/-- The compiled form of the pattern foo under flags gm. -/
def fooCr : CompiledRegex :=
  (compileRegex "foo" "gm").getD
    { reg := .fail, flags := { g := false, i := false, m := false, s := false } }

/-- Environment with no workspace, no bundled rules, no config and no
reachable network: loadRules builds an empty merged set from it. -/
def envW : RulesEnv :=
  { workspaceRoot := none
    base := fun _ => .ok none
    workspaceSets := fun _ => []
    config := none
    fetch := fun _ => .netError }

/-- The merged rule set loadRules builds from envW for wordpress. -/
def rsW : RuleSet :=
  { context := .wordpress
    description := "wordpress rules (including workspace and community overlays)"
    rules := []
    source := some "merged" }

/-- A rule carrying an auto-fix replacement whose pattern is foo. -/
def fixRule : Rule :=
  { id := some "fix-1"
    pattern := "x"
    message := "msg"
    severity := "info"
    category := none
    mustExist := false
    suggestion := none
    fix := some
      { description := "replace foo"
        replace := some
          { pattern := "foo", replacement := "qux", flags := none } } }

/-!  Association list lemmas for the Map model underlying mergeRuleSets
and the rules cache. -/

theorem alistFind_mapSet (m : List (String × Rule)) (k k2 : String)
    (r : Rule) :
    alistFind (mapSet m k r) k2 =
      if k2 = k then some r else alistFind m k2 := by
  induction m with
  | nil =>
    simp only [mapSet, alistFind]
    by_cases h : k = k2
    · subst h; simp
    · rw [if_neg h, if_neg (Ne.symm h)]
  | cons e rest ih =>
    obtain ⟨k0, r0⟩ := e
    simp only [mapSet]
    by_cases h0 : k0 = k
    · subst h0
      simp only [if_pos rfl, alistFind]
      by_cases h : k0 = k2
      · subst h; simp
      · rw [if_neg h, if_neg (Ne.symm h), if_neg h]
    · rw [if_neg h0]
      simp only [alistFind, ih]
      by_cases h : k0 = k2
      · subst h
        simp [h0]
      · rw [if_neg h, if_neg h]

theorem lastRuleWith_cons (r0 : Rule) (l : List Rule) (k : String) :
    lastRuleWith (r0 :: l) k =
      (lastRuleWith l k).or
        (if ruleKey r0 = k then some r0 else none) := by
  simp only [lastRuleWith, List.reverse_cons, List.find?_append]
  congr 1
  by_cases h : ruleKey r0 = k <;> simp [List.find?_cons, h]

theorem lastRuleWith_append (l1 l2 : List Rule) (k : String) :
    lastRuleWith (l1 ++ l2) k =
      (lastRuleWith l2 k).or (lastRuleWith l1 k) := by
  simp [lastRuleWith, List.reverse_append, List.find?_append]

theorem lastRuleWith_eq_none (l : List Rule) (k : String)
    (h : ∀ r ∈ l, ruleKey r ≠ k) : lastRuleWith l k = none := by
  simp only [lastRuleWith, List.find?_eq_none, List.mem_reverse]
  intro r hr
  simpa using h r hr

/-- Inserting a list of rules into the merge map moves its lookup to
the last occurrence of the key among the inserted rules, falling back
to the previous binding. -/
theorem alistFind_foldl_mapSet (k : String) :
    ∀ (l : List Rule) (m0 : List (String × Rule)),
    alistFind (l.foldl (fun m r => mapSet m (ruleKey r) r) m0) k =
      (lastRuleWith l k).or (alistFind m0 k) := by
  intro l
  induction l with
  | nil => intro m0; simp [lastRuleWith, List.find?]
  | cons r0 rest ih =>
    intro m0
    rw [List.foldl_cons, ih, lastRuleWith_cons, alistFind_mapSet]
    cases hlast : lastRuleWith rest k with
    | some r => simp
    | none =>
      simp only [Option.none_or]
      by_cases h : ruleKey r0 = k
      · subst h; simp
      · rw [if_neg (fun hc => h hc.symm), if_neg h]
        simp

/-- The merge map of a list of rule sets, before taking values. -/
def mergeMap (ruleSets : List RuleSet) : List (String × Rule) :=
  ruleSets.foldl
    (fun m set => set.rules.foldl (fun m r => mapSet m (ruleKey r) r) m) []

theorem mergeRuleSets_eq_map (ruleSets : List RuleSet) :
    mergeRuleSets ruleSets = (mergeMap ruleSets).map (·.2) := rfl

/-- The nested fold of mergeRuleSets equals one fold over the
concatenation of all rules. -/
theorem mergeMap_eq_flat (ruleSets : List RuleSet) :
    mergeMap ruleSets =
      (ruleSets.flatMap (·.rules)).foldl
        (fun m r => mapSet m (ruleKey r) r) [] := by
  suffices h : ∀ (sets : List RuleSet) (m0 : List (String × Rule)),
      sets.foldl
        (fun m set => set.rules.foldl (fun m r => mapSet m (ruleKey r) r) m)
        m0 =
      (sets.flatMap (·.rules)).foldl (fun m r => mapSet m (ruleKey r) r) m0 by
    exact h ruleSets []
  intro sets
  induction sets with
  | nil => intro m0; simp
  | cons s rest ih =>
    intro m0
    simp [List.flatMap_cons, List.foldl_append, ih]

/-- Lookup in the merge map is the last rule with the key across all
sets in load order. -/
theorem alistFind_mergeMap (ruleSets : List RuleSet) (k : String) :
    alistFind (mergeMap ruleSets) k =
      lastRuleWith (ruleSets.flatMap (·.rules)) k := by
  rw [mergeMap_eq_flat, alistFind_foldl_mapSet]
  cases lastRuleWith (ruleSets.flatMap (·.rules)) k <;> simp [alistFind]

/-- mapSet with a key bound to a rule of the same identity keeps every
entry binding a key to a rule carrying that identity. -/
theorem mapSet_consistent (k : String) (v : Rule) (hk : k = ruleKey v) :
    ∀ (m : List (String × Rule)), (∀ e ∈ m, e.1 = ruleKey e.2) →
    ∀ e ∈ mapSet m k v, e.1 = ruleKey e.2 := by
  intro m
  induction m with
  | nil =>
    intro _ e he
    simp only [mapSet, List.mem_singleton] at he
    subst he; exact hk
  | cons e0 rest ih =>
    obtain ⟨k0, v0⟩ := e0
    intro h e he
    by_cases h0 : k0 = k
    · subst h0
      simp [mapSet] at he
      rcases he with he | he
      · subst he; exact hk
      · exact h _ (List.mem_cons_of_mem _ he)
    · simp only [mapSet, if_neg h0, List.mem_cons] at he
      rcases he with he | he
      · subst he; exact h _ (List.mem_cons_self _ _)
      · exact ih (fun x hx => h x (List.mem_cons_of_mem _ hx)) e he

/-- The keys of a map after mapSet: unchanged when the key was already
bound, extended by the new key otherwise. -/
theorem mapSet_keys (k : String) (v : Rule) :
    ∀ (m : List (String × Rule)),
    (mapSet m k v).map (·.1) =
      if k ∈ m.map (·.1) then m.map (·.1) else m.map (·.1) ++ [k] := by
  intro m
  induction m with
  | nil => simp [mapSet]
  | cons e0 rest ih =>
    obtain ⟨k0, v0⟩ := e0
    by_cases h0 : k0 = k
    · subst h0
      simp [mapSet, List.mem_cons]
    · simp only [mapSet, if_neg h0, List.map_cons, ih, List.mem_cons]
      by_cases hc : k ∈ rest.map (·.1)
      · simp [hc, h0, Ne.symm h0]
      · simp [hc, h0, Ne.symm h0]

/-- mapSet preserves distinctness of keys. -/
theorem mapSet_keys_nodup (k : String) (v : Rule)
    (m : List (String × Rule)) (h : (m.map (·.1)).Nodup) :
    ((mapSet m k v).map (·.1)).Nodup := by
  rw [mapSet_keys]
  by_cases hm : k ∈ m.map (·.1)
  · simpa [hm] using h
  · rw [if_neg hm]
    refine List.Nodup.append h (List.nodup_singleton k) ?_
    intro a ha hak
    rw [List.mem_singleton] at hak
    exact hm (hak ▸ ha)

/-- Every entry of the merge map binds a key to a rule carrying that
identity. -/
theorem mergeMap_entries_consistent (ruleSets : List RuleSet) :
    ∀ e ∈ mergeMap ruleSets, e.1 = ruleKey e.2 := by
  have step : ∀ (l : List Rule) (m0 : List (String × Rule)),
      (∀ e ∈ m0, e.1 = ruleKey e.2) →
      ∀ e ∈ l.foldl (fun m r => mapSet m (ruleKey r) r) m0,
        e.1 = ruleKey e.2 := by
    intro l
    induction l with
    | nil => intro m0 h; simpa using h
    | cons r rest ih =>
      intro m0 h
      exact ih (mapSet m0 (ruleKey r) r) (mapSet_consistent _ r rfl m0 h)
  rw [mergeMap_eq_flat]
  exact step _ [] (by simp)

/-- The keys of the merge map are distinct. -/
theorem mergeMap_keys_nodup (ruleSets : List RuleSet) :
    (mergeMap ruleSets).map (·.1) |>.Nodup := by
  have step : ∀ (l : List Rule) (m0 : List (String × Rule)),
      (m0.map (·.1)).Nodup →
      ((l.foldl (fun m r => mapSet m (ruleKey r) r) m0).map (·.1)).Nodup := by
    intro l
    induction l with
    | nil => intro m0 h; simpa using h
    | cons r rest ih =>
      intro m0 h
      exact ih _ (mapSet_keys_nodup (ruleKey r) r m0 h)
  rw [mergeMap_eq_flat]
  exact step _ [] (by simp)

/-- Filtering the values of an association list with consistent entries
and distinct keys by one identity yields exactly the binding of that
key. -/
theorem filter_values_eq_find (k : String) :
    ∀ (m : List (String × Rule)),
    (∀ e ∈ m, e.1 = ruleKey e.2) → ((m.map (·.1)).Nodup) →
    (m.map (·.2)).filter (fun x => decide (ruleKey x = k)) =
      match alistFind m k with
      | some r => [r]
      | none => [] := by
  intro m
  induction m with
  | nil => intro _ _; simp [alistFind]
  | cons e rest ih =>
    intro hcons hnd
    obtain ⟨k0, r0⟩ := e
    have hk0 : k0 = ruleKey r0 := hcons _ (List.mem_cons_self _ _)
    simp only [List.map_cons, List.nodup_cons] at hnd
    have hrest : ∀ x ∈ rest, x.1 = ruleKey x.2 :=
      fun x hx => hcons x (List.mem_cons_of_mem _ hx)
    by_cases h : k0 = k
    · have hzero :
          (rest.map (·.2)).filter (fun x => decide (ruleKey x = k)) = [] := by
        rw [List.filter_eq_nil_iff]
        intro x hx
        simp only [List.mem_map] at hx
        obtain ⟨ee, hee, hex⟩ := hx
        have h1 : ee.1 = ruleKey x := by rw [← hex]; exact hrest ee hee
        simp only [decide_eq_true_eq]
        intro hc
        apply hnd.1
        exact List.mem_map.mpr ⟨ee, hee, by rw [h1, hc, h]⟩
      have hcond : ruleKey r0 = k := hk0.symm.trans h
      simp [List.filter_cons, hcond, hzero, alistFind, h]
    · have hcond : ¬ ruleKey r0 = k := fun hc => h (hk0.trans hc)
      simp only [List.map_cons, List.filter_cons, decide_eq_true_eq]
      rw [if_neg (by simpa using hcond)]
      simpa [alistFind, h] using ih hrest hnd.2

/-- Characterization of the merged rule list at one identity: exactly
the last rule with that identity across all sets, in load order. -/
theorem mergeRuleSets_filter (ruleSets : List RuleSet) (k : String) :
    (mergeRuleSets ruleSets).filter (fun x => decide (ruleKey x = k)) =
      match lastRuleWith (ruleSets.flatMap (·.rules)) k with
      | some r => [r]
      | none => [] := by
  rw [mergeRuleSets_eq_map,
    filter_values_eq_find k (mergeMap ruleSets)
      (mergeMap_entries_consistent ruleSets)
      (mergeMap_keys_nodup ruleSets),
    alistFind_mergeMap]

/-- C1.  Merge precedence law: when a rule identity occurs both in the
bundled set and in the workspace override sets, and no remote set
redefines it, the merged rule list produced by merging bundled first,
then workspace sets, then remote sets contains exactly the workspace
override rule for that identity (the last workspace occurrence, since
later sources overwrite earlier ones on identity collision). -/
theorem merge_precedence_law (b : RuleSet) (ws rs : List RuleSet)
    (k : String) (r : Rule)
    (_hb : k ∈ b.rules.map ruleKey)
    (hw : lastRuleWith (ws.flatMap (·.rules)) k = some r)
    (hr : ∀ s ∈ rs, ∀ rule ∈ s.rules, ruleKey rule ≠ k) :
    (mergeRuleSets ([b] ++ ws ++ rs)).filter
      (fun x => decide (ruleKey x = k)) = [r] := by
  rw [mergeRuleSets_filter]
  have hflat : ([b] ++ ws ++ rs).flatMap (·.rules) =
      b.rules ++ (ws.flatMap (·.rules) ++ rs.flatMap (·.rules)) := by
    simp [List.flatMap_append]
  rw [hflat, lastRuleWith_append, lastRuleWith_append]
  have hrs : lastRuleWith (rs.flatMap (·.rules)) k = none := by
    refine lastRuleWith_eq_none _ _ ?_
    intro rule hrule
    simp only [List.mem_flatMap] at hrule
    obtain ⟨s, hs, hmem⟩ := hrule
    exact hr s hs rule hmem
  rw [hrs, hw]
  rfl

/-- Closed instance of the merge precedence law at concrete rule
sets. -/
theorem merge_precedence_law_witness :
    List.filter (fun x => decide (ruleKey x = "no-eval"))
      (mergeRuleSets ([wBundled] ++ [wOverride] ++ [wRemote]))
      = [wOverrideRule] := by
  exact merge_precedence_law wBundled [wOverride] [wRemote] "no-eval"
    wOverrideRule (by decide) (by decide) (by decide)

/-- C2.  Severity-override resolution: with a config carrying override
entries for the category, every rule whose identity has an override in
the three allowed values gets exactly that severity with all other
fields unchanged, and every other rule is returned unchanged, position
by position. -/
theorem severity_override_resolution (rules : List Rule)
    (context : FrameworkContext) (cfg : WorkspaceConfig)
    (so : List (FrameworkContext × List (String × String)))
    (overrides : List (String × String))
    (h1 : cfg.severityOverrides = some so)
    (h2 : alistFind so context = some overrides) :
    ∀ i : Nat,
      (applySeverityOverrides rules context (some cfg))[i]? =
        (rules[i]?).map fun rule =>
          match alistFind overrides (ruleKey rule) with
          | some v =>
            if v = "error" ∨ v = "warning" ∨ v = "info" then
              { rule with severity := v }
            else rule
          | none => rule := by
  intro i
  simp only [applySeverityOverrides, h1, h2, List.getElem?_map]
  cases rules[i]? with
  | none => rfl
  | some rule =>
    simp only [Option.map]
    congr 1
    cases halist : alistFind overrides (ruleKey rule) with
    | none => rfl
    | some v =>
      by_cases hv : v = ""
      · subst hv
        simp
      · by_cases hval : v = "error" ∨ v = "warning" ∨ v = "info"
        · simp [hv, hval]
        · simp [hv, hval]

/-- Closed instance of severity-override resolution: a valid override
replaces the severity, an invalid one is ignored. -/
theorem severity_override_resolution_witness :
    (applySeverityOverrides [wBundledRule, wRemoteRule] .wordpress
        (some sevCfg))[0]? =
      some { wBundledRule with severity := "warning" }
    ∧ (applySeverityOverrides [wBundledRule, wRemoteRule] .wordpress
        (some sevCfg))[1]? = some wRemoteRule := by
  constructor
  · rw [severity_override_resolution [wBundledRule, wRemoteRule] .wordpress
      sevCfg [(.wordpress, [("no-eval", "warning"), ("wc-order", "fatal")])]
      [("no-eval", "warning"), ("wc-order", "fatal")] rfl rfl 0]
    decide
  · rw [severity_override_resolution [wBundledRule, wRemoteRule] .wordpress
      sevCfg [(.wordpress, [("no-eval", "warning"), ("wc-order", "fatal")])]
      [("no-eval", "warning"), ("wc-order", "fatal")] rfl rfl 1]
    decide

/-!  Helper lemmas for loadRemoteRuleSets. -/

theorem remoteLoopStep_acc (context : FrameworkContext)
    (fetch : String → FetchResponse) (acc : List RuleSet) (url : String) :
    remoteLoopStep context fetch acc url =
      acc ++ remoteLoopStep context fetch [] url := by
  unfold remoteLoopStep
  cases fetchRemoteRuleSet (fetch url) with
  | none => simp
  | some rs =>
    by_cases h : rs.context = some context ∨ rs.context = none
    · simp [h]
    · simp [h]

theorem foldl_remoteLoopStep_acc (context : FrameworkContext)
    (fetch : String → FetchResponse) :
    ∀ (l : List String) (acc : List RuleSet),
    l.foldl (remoteLoopStep context fetch) acc =
      acc ++ l.foldl (remoteLoopStep context fetch) [] := by
  intro l
  induction l with
  | nil => intro acc; simp
  | cons u us ih =>
    intro acc
    rw [List.foldl_cons, List.foldl_cons, remoteLoopStep_acc, ih,
      ih (remoteLoopStep context fetch [] u), List.append_assoc]

theorem loadRemote_eq_foldl (context : FrameworkContext)
    (l : List String) (fetch : String → FetchResponse) :
    loadRemoteRuleSets context (some l) fetch =
      l.foldl (remoteLoopStep context fetch) [] := by
  cases l with
  | nil => rfl
  | cons u us => simp [loadRemoteRuleSets]

theorem loadRemote_append (context : FrameworkContext)
    (fetch : String → FetchResponse) (l1 l2 : List String) :
    loadRemoteRuleSets context (some (l1 ++ l2)) fetch =
      loadRemoteRuleSets context (some l1) fetch ++
        loadRemoteRuleSets context (some l2) fetch := by
  rw [loadRemote_eq_foldl, loadRemote_eq_foldl, loadRemote_eq_foldl,
    List.foldl_append, foldl_remoteLoopStep_acc]

theorem loadRemote_singleton (context : FrameworkContext)
    (fetch : String → FetchResponse) (u : String) :
    loadRemoteRuleSets context (some [u]) fetch =
      remoteLoopStep context fetch [] u := by
  simp [loadRemoteRuleSets]

/-- C9.  Remote failure isolation: a URL whose fetch yields a network
error, an HTTP status of 400 or more, or a JSON-parse failure
contributes zero rules, leaving the other URLs and the merge with
bundled and workspace rules unaffected. -/
theorem remote_failure_isolation (context : FrameworkContext)
    (us1 us2 : List String) (u : String)
    (fetch : String → FetchResponse)
    (hfail : fetch u = .netError ∨
      ∃ status parsed, fetch u = .response status parsed ∧
        (400 ≤ status ∨ parsed = none)) :
    loadRemoteRuleSets context (some (us1 ++ u :: us2)) fetch =
      loadRemoteRuleSets context (some (us1 ++ us2)) fetch
    ∧ ∀ baseSets : List RuleSet,
        mergeRuleSets
          (baseSets ++ loadRemoteRuleSets context (some (us1 ++ u :: us2)) fetch) =
        mergeRuleSets
          (baseSets ++ loadRemoteRuleSets context (some (us1 ++ us2)) fetch) := by
  have hnone : fetchRemoteRuleSet (fetch u) = none := by
    rcases hfail with h | ⟨status, parsed, h, hcase⟩
    · rw [h]; rfl
    · rw [h]
      rcases hcase with hs | hp
      · simp [fetchRemoteRuleSet, hs]
      · subst hp
        simp [fetchRemoteRuleSet]
  have hstep : ∀ acc, remoteLoopStep context fetch acc u = acc := by
    intro acc
    unfold remoteLoopStep
    rw [hnone]
  have hmain : loadRemoteRuleSets context (some (us1 ++ u :: us2)) fetch =
      loadRemoteRuleSets context (some (us1 ++ us2)) fetch := by
    rw [loadRemote_eq_foldl, loadRemote_eq_foldl, List.foldl_append,
      List.foldl_cons, hstep, ← List.foldl_append]
  exact ⟨hmain, fun baseSets => by rw [hmain]⟩

/-- Closed instance of remote failure isolation: an HTTP 500 URL
between two healthy URLs changes nothing. -/
theorem remote_failure_isolation_witness :
    loadRemoteRuleSets .wordpress
        (some (["https://ok"] ++ "https://bad" :: ["https://ok2"])) c9Fetch =
      loadRemoteRuleSets .wordpress
        (some (["https://ok"] ++ ["https://ok2"])) c9Fetch := by
  exact (remote_failure_isolation .wordpress ["https://ok"] ["https://ok2"]
    "https://bad" c9Fetch
    (Or.inr ⟨500, none, by decide, Or.inl (by decide)⟩)).1

/-- C4 counterexample: a successfully fetched and parsed remote rule
set that declares a category different from the requested one is
dropped rather than coerced, so it does not participate in the
merge. -/
theorem remote_category_counterexample :
    loadRemoteRuleSets .wordpress (some ["https://feed"]) c4Fetch = [] := by
  decide

/-- C4 amended.  Remote category coercion: a fetched rule set whose
declared category is absent or equal to the requested one is coerced to
the requested category, tagged with its URL, and participates in the
merge; a fetched rule set declaring a different category is skipped. -/
theorem remote_category_coercion_amended (context : FrameworkContext)
    (us1 us2 : List String) (u : String)
    (fetch : String → FetchResponse) (status : Nat) (rrs : RemoteRuleSet)
    (hf : fetch u = .response status (some rrs)) (hs : status < 400) :
    ((rrs.context = some context ∨ rrs.context = none) →
      loadRemoteRuleSets context (some (us1 ++ u :: us2)) fetch =
        loadRemoteRuleSets context (some us1) fetch ++
          [{ context := context
             description := rrs.description
             rules := rrs.rules
             source := some u }] ++
          loadRemoteRuleSets context (some us2) fetch)
    ∧ (∀ c, rrs.context = some c → c ≠ context →
      loadRemoteRuleSets context (some (us1 ++ u :: us2)) fetch =
        loadRemoteRuleSets context (some us1) fetch ++
          loadRemoteRuleSets context (some us2) fetch) := by
  have hfetch : fetchRemoteRuleSet (fetch u) = some rrs := by
    rw [hf]
    simp [fetchRemoteRuleSet, show ¬ 400 ≤ status by omega]
  have hsplit : us1 ++ u :: us2 = (us1 ++ [u]) ++ us2 := by simp
  constructor
  · intro h
    rw [hsplit, loadRemote_append, loadRemote_append, loadRemote_singleton]
    simp [remoteLoopStep, hfetch, h]
  · intro c hc hne
    have hcond : ¬ (rrs.context = some context ∨ rrs.context = none) := by
      rw [hc]
      rintro (h1 | h1)
      · exact hne (Option.some.inj h1)
      · exact Option.noConfusion h1
    rw [hsplit, loadRemote_append, loadRemote_append, loadRemote_singleton]
    simp [remoteLoopStep, hfetch, hcond]

/-- Closed instance of the amended remote coercion claim: a category-
less fetched set is coerced to the requested category and tagged with
its URL. -/
theorem remote_category_coercion_witness :
    loadRemoteRuleSets .wordpress (some ([] ++ "https://feed" :: []))
        c4FetchOk =
      loadRemoteRuleSets .wordpress (some []) c4FetchOk ++
        [{ context := .wordpress
           description := c4OkRemote.description
           rules := c4OkRemote.rules
           source := some "https://feed" }] ++
        loadRemoteRuleSets .wordpress (some []) c4FetchOk := by
  exact (remote_category_coercion_amended .wordpress [] [] "https://feed"
    c4FetchOk 200 c4OkRemote rfl (by decide)).1 (Or.inr rfl)

/-- C5.  mustExist semantics: a mustExist rule with a well-formed
pattern contributes exactly one issue anchored at line 1 column 1 with
the missing sentinel when the pattern matches nowhere in the content,
and zero issues when it matches somewhere. -/
theorem mustExist_semantics (content : String) (rule : Rule)
    (cr : CompiledRegex) (hm : rule.mustExist = true)
    (hc : compileRegex rule.pattern "gm" = some cr) :
    (regexTest cr content = false →
      auditRule content rule = .ok
        [{ line := 1, column := 1, rule := rule, matched := "(missing)",
           suggestion := rule.suggestion, fix := rule.fix }])
    ∧ (regexTest cr content = true →
      auditRule content rule = .ok []) := by
  constructor <;> intro h <;> simp [auditRule, hc, hm, h]

/-- Closed instance of mustExist semantics: content without foo yields
the single missing-pattern issue. -/
theorem mustExist_semantics_witness :
    auditRule "bar baz" mustRule = .ok
      [{ line := 1, column := 1, rule := mustRule, matched := "(missing)",
         suggestion := none, fix := none }] := by
  exact (mustExist_semantics "bar baz" mustRule fooCr rfl (by decide)).1
    (by decide)

/-- C3 (divergence witness).  A malformed rule pattern aborts the whole
audit: the rule loop of auditFile throws out of new RegExp with no
catch, so a rule set holding one broken and one well-formed rule
produces an error instead of the issues of the well-formed rule, which
auditing the well-formed rule alone would report. -/
theorem malformed_regex_aborts_audit :
    auditContent "eval(x);" [badRule, wBundledRule] = .error ()
    ∧ auditContent "eval(x);" [wBundledRule] = .ok
      [{ line := 1, column := 1, rule := wBundledRule, matched := "eval(",
         suggestion := none, fix := none }] := by
  constructor <;> rfl

/-!  Cache lemmas for loadRules. -/

theorem cacheGet_cacheSet (c : RulesCache) (k k2 : String) (v : RuleSet) :
    cacheGet (cacheSet c k v) k2 =
      if k2 = k then some v else cacheGet c k2 := by
  induction c with
  | nil =>
    simp only [cacheSet, cacheGet, alistFind]
    by_cases h : k = k2
    · subst h; simp
    · rw [if_neg h, if_neg (Ne.symm h)]
  | cons e rest ih =>
    obtain ⟨k0, v0⟩ := e
    simp only [cacheSet]
    by_cases h0 : k0 = k
    · subst h0
      simp only [if_pos rfl, cacheGet, alistFind]
      by_cases h : k0 = k2
      · subst h; simp
      · rw [if_neg h, if_neg (Ne.symm h), if_neg h]
    · rw [if_neg h0]
      simp only [cacheGet, alistFind] at ih ⊢
      rw [ih]
      by_cases h : k0 = k2
      · subst h
        simp [h0]
      · rw [if_neg h, if_neg h]

theorem loadRules_result_cached (env : RulesEnv)
    (context : FrameworkContext) (cache : RulesCache) (rs : RuleSet)
    (hctx : context ≠ .unknown)
    (h1 : (loadRules env context cache).1 = some rs) :
    cacheGet (loadRules env context cache).2
      (getCacheKey env.workspaceRoot context) = some rs := by
  unfold loadRules at h1 ⊢
  rw [if_neg hctx] at h1 ⊢
  cases hget : cacheGet cache (getCacheKey env.workspaceRoot context) with
  | some cached =>
    simp only [hget] at h1 ⊢
    exact h1
  | none =>
    simp only [hget] at h1 ⊢
    cases hb : buildMergedRuleSet env context with
    | ok m =>
      simp only [hb] at h1 ⊢
      rw [cacheGet_cacheSet, if_pos rfl]
      simpa using h1
    | error e =>
      simp only [hb] at h1
      simp at h1

/-- C6.  Cache idempotence: once a rule-load request for a non-unknown
category has produced a merged set, a second request for the same
category and workspace root returns the very same set from the cache,
regardless of what the sources would now provide; clearCache empties
the whole cache unconditionally, and the next request after a clear
rebuilds the set lazily from the sources. -/
theorem cache_idempotence (env env2 : RulesEnv)
    (context : FrameworkContext) (cache : RulesCache) (rs : RuleSet)
    (hctx : context ≠ .unknown)
    (hroot : env2.workspaceRoot = env.workspaceRoot)
    (h1 : (loadRules env context cache).1 = some rs) :
    loadRules env2 context (loadRules env context cache).2 =
      (some rs, (loadRules env context cache).2)
    ∧ clearCache (loadRules env context cache).2 = []
    ∧ loadRules env2 context (clearCache (loadRules env context cache).2) =
        (match buildMergedRuleSet env2 context with
         | .ok r => (some r, [(getCacheKey env2.workspaceRoot context, r)])
         | .error _ => (none, [])) := by
  refine ⟨?_, rfl, ?_⟩
  · have hget : cacheGet (loadRules env context cache).2
        (getCacheKey env2.workspaceRoot context) = some rs := by
      rw [hroot]
      exact loadRules_result_cached env context cache rs hctx h1
    generalize hc2 : (loadRules env context cache).2 = c1 at hget ⊢
    conv_lhs => unfold loadRules
    rw [if_neg hctx, hget]
  · conv_lhs => unfold loadRules
    rw [if_neg hctx]
    cases hb : buildMergedRuleSet env2 context <;>
      simp [hb, clearCache, cacheGet, alistFind, cacheSet]

/-- Closed instance of cache idempotence over an environment with no
sources. -/
theorem cache_idempotence_witness :
    loadRules envW .wordpress (loadRules envW .wordpress []).2 =
      (some rsW, (loadRules envW .wordpress []).2)
    ∧ clearCache (loadRules envW .wordpress []).2 = []
    ∧ loadRules envW .wordpress (clearCache (loadRules envW .wordpress []).2) =
        (match buildMergedRuleSet envW .wordpress with
         | .ok r => (some r, [(getCacheKey envW.workspaceRoot .wordpress, r)])
         | .error _ => (none, [])) := by
  exact cache_idempotence envW envW .wordpress [] rsW (by decide) rfl
    (by decide)

/-- Fixes loop helper: when no fixable rule of the list has a matching
fix regex against the content, the loop leaves the content and the
applied list unchanged. -/
theorem applyFixesLoop_no_match (content : String) :
    ∀ (l : List Rule) (applied : List String),
    (∀ rule ∈ l, ∀ rep, rule.fix.bind (·.replace) = some rep →
      ∃ cr, compileRegex rep.pattern (jsOrOpt rep.flags "gm") = some cr ∧
        regexTest cr content = false) →
    applyFixesLoop l content applied = .ok (content, applied) := by
  intro l
  induction l with
  | nil => intro applied _; rfl
  | cons rule rest ih =>
    intro applied h
    unfold applyFixesLoop
    cases hrep : rule.fix.bind (·.replace) with
    | none => exact ih applied (fun r hr => h r (List.mem_cons_of_mem _ hr))
    | some rep =>
      obtain ⟨cr, hcr, htest⟩ :=
        h rule (List.mem_cons_self _ _) rep hrep
      simp only [hcr, htest, Bool.false_eq_true, if_false]
      exact ih applied (fun r hr => h r (List.mem_cons_of_mem _ hr))

/-- C7.  Auto-fix round trip: when no rule carrying a fix.replace
descriptor has a fix regex matching the content (and hence matching the
progressively updated content, which never changes), applyAutoFixes
returns the content identical to the input and an empty applied
list. -/
theorem autofix_round_trip (content : String) (rules : List Rule)
    (h : ∀ rule ∈ rules, ∀ rep, rule.fix.bind (·.replace) = some rep →
      ∃ cr, compileRegex rep.pattern (jsOrOpt rep.flags "gm") = some cr ∧
        regexTest cr content = false) :
    applyAutoFixes content rules = .ok (content, []) := by
  unfold applyAutoFixes
  exact applyFixesLoop_no_match content _ []
    (fun r hr => h r (List.mem_of_mem_filter hr))

/-- Closed instance of the auto-fix round trip: a fixable rule whose
fix pattern does not occur in the content changes nothing. -/
theorem autofix_round_trip_witness :
    applyAutoFixes "bar" [fixRule] = .ok ("bar", []) := by
  refine autofix_round_trip "bar" [fixRule] ?_
  intro rule hrule rep hrep
  rw [List.mem_singleton] at hrule
  subst hrule
  simp only [fixRule] at hrep
  have hrep2 : rep = { pattern := "foo", replacement := "qux", flags := none } :=
    (Option.some.inj hrep).symm
  subst hrep2
  exact ⟨fooCr, by decide, by decide⟩

/-!  Lemmas for the signature detection loops. -/

theorem detectLoop_eq_find (content : String) :
    ∀ sigs : List ContextSignature,
    detectLoop content sigs =
      match sigs.find? (fun sig => signatureMatches sig content) with
      | some sig => sig.context
      | none => FrameworkContext.unknown := by
  intro sigs
  induction sigs with
  | nil => rfl
  | cons sig rest ih =>
    cases h : signatureMatches sig content with
    | true => simp [detectLoop, h, List.find?_cons]
    | false => simp [detectLoop, h, List.find?_cons, ih]

theorem find_eq_head_filter {α : Type} (p : α → Bool) :
    ∀ l : List α, l.find? p = (l.filter p).head? := by
  intro l
  induction l with
  | nil => rfl
  | cons a t ih =>
    cases h : p a with
    | true =>
      rw [List.find?_cons_of_pos _ h, List.filter_cons_of_pos h,
        List.head?_cons]
    | false =>
      rw [List.find?_cons_of_neg _ (by simp [h]),
        List.filter_cons_of_neg (by simp [h]), ih]

theorem head_of_head_eq_some {α : Type} {l : List α} {a : α}
    (h : l.head? = some a) : a ∈ l := by
  cases l with
  | nil => cases h
  | cons b t =>
    simp only [List.head?_cons, Option.some.injEq] at h
    subst h
    exact List.mem_cons_self _ _

/-- C8.  Detection contract: detectContext iterates the signature table
in declaration order, testing patterns case-insensitively, and returns
the category of the first signature with a matching pattern, the
unknown sentinel when none matches, and in particular unknown on empty
content. -/
theorem detect_contract :
    (∀ content, detectContext content = detectContextSpec content)
    ∧ detectContext "" = .unknown := by
  constructor
  · intro content
    unfold detectContext detectContextSpec
    exact detectLoop_eq_find content signatures
  · decide

theorem setAdd_of_not_mem (l : List FrameworkContext) (c : FrameworkContext)
    (h : c ∉ l) : setAdd l c = l ++ [c] := by
  simp [setAdd, h]

theorem detectAllLoop_eq (content : String) :
    ∀ (sigs : List ContextSignature) (acc : List FrameworkContext),
    (∀ sig ∈ sigs, sig.context ∉ acc) →
    ((sigs.map (·.context)).Nodup) →
    detectAllLoop content acc sigs =
      acc ++
        (sigs.filter (fun sig => signatureMatches sig content)).map
          (·.context) := by
  intro sigs
  induction sigs with
  | nil => intro acc _ _; simp [detectAllLoop]
  | cons sig rest ih =>
    intro acc hacc hnd
    simp only [List.map_cons, List.nodup_cons] at hnd
    cases h : signatureMatches sig content with
    | false =>
      simp only [detectAllLoop, h, Bool.false_eq_true, if_false,
        List.filter_cons]
      rw [ih acc (fun s hs => hacc s (List.mem_cons_of_mem _ hs)) hnd.2]
    | true =>
      have hset : setAdd acc sig.context = acc ++ [sig.context] :=
        setAdd_of_not_mem _ _ (hacc sig (List.mem_cons_self _ _))
      have hacc2 : ∀ s ∈ rest, s.context ∉ acc ++ [sig.context] := by
        intro s hs
        simp only [List.mem_append, List.mem_singleton]
        rintro (hmem | hmem)
        · exact hacc s (List.mem_cons_of_mem _ hs) hmem
        · exact hnd.1 (hmem ▸ List.mem_map.mpr ⟨s, hs, rfl⟩)
      simp only [detectAllLoop, h, if_true, hset, List.filter_cons]
      rw [ih (acc ++ [sig.context]) hacc2 hnd.2]
      simp [h, List.append_assoc]

/-- C10.  Detection consistency: detectAllContexts returns a duplicate-
free list that never holds the unknown sentinel, and whenever
detectContext finds a category, that category is an element of the
detectAllContexts result and is its first element. -/
theorem detect_consistency :
    ∀ content : String,
      (detectAllContexts content).Nodup
      ∧ FrameworkContext.unknown ∉ detectAllContexts content
      ∧ (detectContext content ≠ .unknown →
          detectContext content ∈ detectAllContexts content
          ∧ (detectAllContexts content).head? =
              some (detectContext content)) := by
  intro content
  have heq : detectAllContexts content =
      (signatures.filter (fun sig => signatureMatches sig content)).map
        (·.context) := by
    unfold detectAllContexts
    rw [detectAllLoop_eq content signatures [] (by simp) (by decide)]
    simp
  have hsub :
      ((signatures.filter (fun sig => signatureMatches sig content)).map
        (·.context)).Sublist (signatures.map (·.context)) :=
    List.Sublist.map _ (List.filter_sublist _)
  have hdc : detectContext content =
      match (signatures.filter
          (fun sig => signatureMatches sig content)).head? with
      | some sig => sig.context
      | none => FrameworkContext.unknown := by
    unfold detectContext
    rw [detectLoop_eq_find, find_eq_head_filter]
  refine ⟨?_, ?_, ?_⟩
  · rw [heq]
    exact List.Nodup.sublist hsub (by decide)
  · rw [heq]
    intro hmem
    exact absurd (hsub.subset hmem) (by decide)
  · intro hne
    cases hh : (signatures.filter
        (fun sig => signatureMatches sig content)).head? with
    | none =>
      exfalso
      apply hne
      rw [hdc, hh]
    | some sig =>
      have hdc2 : detectContext content = sig.context := by rw [hdc, hh]
      constructor
      · rw [heq, hdc2]
        exact List.mem_map.mpr ⟨sig, head_of_head_eq_some hh, rfl⟩
      · rw [heq, hdc2, List.head?_map, hh]
        rfl

/-- Closed instance of detection consistency on WordPress content. -/
theorem detect_consistency_witness :
    (detectAllContexts "add_action (").Nodup
    ∧ FrameworkContext.unknown ∉ detectAllContexts "add_action ("
    ∧ detectContext "add_action (" ∈ detectAllContexts "add_action ("
    ∧ (detectAllContexts "add_action (").head? =
        some (detectContext "add_action (") := by
  obtain ⟨h1, h2, h3⟩ := detect_consistency "add_action ("
  obtain ⟨h4, h5⟩ := h3 (by decide)
  exact ⟨h1, h2, h4, h5⟩

end PCW
